import Mathlib

/-!
Verification of the localization merge utility in
`scripts/add-vin-translations.py` and `scripts/fix-vin-scanner-translations.py`.

A locale document is modelled as an association list from section names to
association lists from keys to values, in file/insertion order; this mirrors a
Python `dict` of `dict`s of `str`, whose iteration order is insertion order.
All dictionary operations below reproduce Python `dict` semantics exactly:
lookup finds the first (unique, in a real dict) matching key, and assignment
overwrites in place (keeping the key's position) or appends a fresh key at the
end.
-/

namespace VinMerge

/-- Per-run merge statistics: the `added_keys` / `updated_keys` counters of
`add_translations_to_json` and `fix_translations`. -/
structure MergeStats where
  added : Nat
  updated : Nat
deriving Repr, DecidableEq

/-- A section of a locale document: a mapping from keys to values. -/
abbrev SectionMap := List (String × String)

/-- A locale document: a mapping from section names to sections. -/
abbrev Document := List (String × SectionMap)

/-- A patch (`TRANSLATIONS[lang]` in `add-vin-translations.py`): a mapping
from section names to mappings of keys to replacement values. -/
abbrev Patch := List (String × SectionMap)

/-- Python `d[k]` / `d.get(k)`: the value stored at key `k`. -/
def dictGet {α : Type} (d : List (String × α)) (k : String) : Option α :=
  match d with
  | [] => none
  | (k', v) :: rest => if k' = k then some v else dictGet rest k

/-- Python `k in d`. -/
def dictHas {α : Type} (d : List (String × α)) (k : String) : Bool :=
  (dictGet d k).isSome

/-- Python `d[k] = v`: overwrite in place if the key is present (keeping its
position in iteration order), otherwise append the new key at the end. -/
def dictSet {α : Type} (d : List (String × α)) (k : String) (v : α) : List (String × α) :=
  match d with
  | [] => [(k, v)]
  | (k', v') :: rest => if k' = k then (k, v) :: rest else (k', v') :: dictSet rest k v

/-- Two-level lookup: the value of key `k` in section `s` of a document. -/
def docGet (doc : Document) (s k : String) : Option String :=
  (dictGet doc s).bind (fun sec => dictGet sec k)

/-- The inner key loop of `add_translations_to_json`
(`add-vin-translations.py` lines 407-416) and of `fix_translations`
(`fix-vin-scanner-translations.py` lines 131-140): for each patch key, if the
key is absent insert it and bump `added`; if present with a different value
bump `updated`; in every case store the patch value. -/
def applyKeys (sec : SectionMap) (keys : SectionMap) (stats : MergeStats) :
    SectionMap × MergeStats :=
  match keys with
  | [] => (sec, stats)
  | (k, v) :: rest =>
    let stats' :=
      match dictGet sec k with
      | none => { stats with added := stats.added + 1 }
      | some v0 => if v0 ≠ v then { stats with updated := stats.updated + 1 } else stats
    applyKeys (dictSet sec k v) rest stats'

/-- The section loop of `add_translations_to_json`
(`add-vin-translations.py` lines 401-416): for each patch section, create it
as an empty mapping if absent, then run the key loop. -/
def applyPatchGo (doc : Document) (patch : Patch) (stats : MergeStats) :
    Document × MergeStats :=
  match patch with
  | [] => (doc, stats)
  | (s, keys) :: rest =>
    let doc1 := if dictHas doc s then doc else dictSet doc s []
    let sec := (dictGet doc1 s).getD []
    let out := applyKeys sec keys stats
    applyPatchGo (dictSet doc1 s out.1) rest out.2

/-- The pure merge performed by `add_translations_to_json` between loading
and saving, starting from zeroed counters. -/
def applyPatch (doc : Document) (patch : Patch) : Document × MergeStats :=
  applyPatchGo doc patch ⟨0, 0⟩

/-- Python string comparison `a < b`: lexicographic on Unicode code points. -/
def charListLt : List Char → List Char → Bool
  | [], [] => false
  | [], _ :: _ => true
  | _ :: _, [] => false
  | a :: as, b :: bs => if a = b then charListLt as bs else decide (a < b)

/-- Python `a < b` on strings. -/
def pyStrLt (a b : String) : Bool :=
  charListLt a.data b.data

/-- Python `a <= b` on strings. -/
def pyStrLe (a b : String) : Bool :=
  a == b || pyStrLt a b

/-- Python tuple comparison `(k1, v1) <= (k2, v2)` as used by
`sorted(data['vin_scanner_hub'].items())`: lexicographic on the pair. -/
def pairLe (a b : String × String) : Bool :=
  if a.1 = b.1 then pyStrLe a.2 b.2 else pyStrLt a.1 b.1

/-- The section name hard-coded in `fix-vin-scanner-translations.py`. -/
def hubSection : String := "vin_scanner_hub"

/-- The pure merge performed by `fix_translations`
(`fix-vin-scanner-translations.py` lines 119-143): ensure the
`vin_scanner_hub` section exists, run the key loop on it with the
per-language `MISSING_KEYS` mapping, then rewrite that one section with its
entries sorted (Python `dict(sorted(...items()))`; `List.insertionSort` is
a stable sort, as is Python's `sorted`, and a stable sort by a total
preorder is unique, so the two agree). -/
def fix_translations_merge (doc : Document) (missing_keys : SectionMap) :
    Document × MergeStats :=
  let doc1 := if dictHas doc hubSection then doc else dictSet doc hubSection []
  let sec := (dictGet doc1 hubSection).getD []
  let out := applyKeys sec missing_keys ⟨0, 0⟩
  (dictSet doc1 hubSection
    (List.insertionSort (fun a b => pairLe a b = true) out.1), out.2)

/-!
Untyped model for the error path.  A freshly loaded JSON value need not match
the section schema: a section's value can be a scalar string instead of a
mapping.  `PyVal` models just enough of Python's value universe for the
schema-violation scenario: the key-presence test `key in data[section]` is a
substring test on a `str` and raises nothing, but the subscript
`data[section][key]` (read or assignment) raises `TypeError`, which the bare
`except` at the per-locale boundary turns into a `False` return.
-/

/-- A loaded JSON value for a section: either a proper mapping or a scalar
string. -/
inductive PyVal where
  | str (s : String)
  | dict (entries : List (String × PyVal))

/-- The inner key loop of `add_translations_to_json` on an untyped section
value.  On a scalar (`PyVal.str`) section the first key iteration raises
`TypeError` (modelled as `Except.error`): `data[section][key] != value` and
`data[section][key] = value` are both illegal on a `str`. -/
def mergeSectionV (sec : PyVal) (keys : SectionMap) (stats : MergeStats) :
    Except Unit (PyVal × MergeStats) :=
  match keys with
  | [] => Except.ok (sec, stats)
  | (k, v) :: rest =>
    match sec with
    | PyVal.str _ => Except.error ()
    | PyVal.dict d =>
      let stats' :=
        match dictGet d k with
        | none => { stats with added := stats.added + 1 }
        | some (PyVal.str v0) =>
          if v0 ≠ v then { stats with updated := stats.updated + 1 } else stats
        | some (PyVal.dict _) => { stats with updated := stats.updated + 1 }
      mergeSectionV (PyVal.dict (dictSet d k (PyVal.str v))) rest stats'

/-- The section loop of `add_translations_to_json` on an untyped document;
a `TypeError` anywhere aborts the merge (the exception propagates out of the
loop to the enclosing `try`). -/
def mergeDocV (doc : List (String × PyVal)) (patch : Patch) (stats : MergeStats) :
    Except Unit (List (String × PyVal) × MergeStats) :=
  match patch with
  | [] => Except.ok (doc, stats)
  | (s, keys) :: rest =>
    let doc1 := if dictHas doc s then doc else dictSet doc s (PyVal.dict [])
    let sec := (dictGet doc1 s).getD (PyVal.dict [])
    match mergeSectionV sec keys stats with
    | Except.error e => Except.error e
    | Except.ok out => mergeDocV (dictSet doc1 s out.1) rest out.2

/-- The per-locale boundary of `add_translations_to_json`: everything in the
body runs under `try`, and any exception is caught and turned into a `False`
return.  `loaded` is the outcome of `open` + `json.load` (`none` models
`FileNotFoundError` / `JSONDecodeError`), and `writeOk` the outcome of the
final write. -/
def add_translations_to_json_run (loaded : Option (List (String × PyVal)))
    (patch : Patch) (writeOk : Bool) : Bool :=
  match loaded with
  | none => false
  | some data =>
    match mergeDocV data patch ⟨0, 0⟩ with
    | Except.error _ => false
    | Except.ok _ => writeOk

/-- The hard-coded locale list of both scripts' `main`. -/
def locales : List String := ["en", "es", "pt-BR"]

/-- The `for lang, file_path in files.items()` loop of `main`: each locale is
processed in turn; the per-locale call always returns (its `try`/`except`
swallows every exception), so no outcome can abort the loop. -/
def mainRun (process : String → Bool) : List (String × Bool) :=
  locales.map (fun l => (l, process l))

/-- The `success_count` accumulator of `main`. -/
def success_count (process : String → Bool) : Nat :=
  (mainRun process).countP (fun r => r.2)

/-- The return value of `main`, passed to `sys.exit`:
`0` when `success_count == 3`, else `1`. -/
def mainExitCode (process : String → Bool) : Nat :=
  if success_count process = 3 then 0 else 1

/-!
Serialization.  `add_translations_to_json` persists with
`json.dump(data, f, ensure_ascii=False, indent=2)` and loads with
`json.load(f)`.  The encoder below reproduces `json.dump`'s exact output for
a two-level string mapping: two-space indentation, `", "`-free separators
(`',\n'` between items, `': '` after keys), literal non-ASCII characters,
and escaping only of `"`, `\` and control characters (short escapes for
`\b \f \n \r \t`, `\u00XX` otherwise, lowercase hex).  The decoder models
`json.load` restricted to the document shape the scripts read and write:
it accepts arbitrary JSON whitespace between tokens, all standard string
escapes, and builds dictionaries the way CPython's decoder does (repeated
keys keep the first position and the last value).  Lone-surrogate `\uXXXX`
escapes are rejected (a Lean `Char` cannot hold a surrogate code unit; the
encoder never emits one).
-/

/-- Lowercase hexadecimal digit, as produced by Python's `'\u%04x'`. -/
def hexDigitChar (n : Nat) : Char :=
  if n < 10 then Char.ofNat (48 + n) else Char.ofNat (87 + n)

/-- How `json.dump` (with `ensure_ascii=False`) renders one character inside
a string literal. -/
def escapeChar (c : Char) : List Char :=
  if c = '"' then ['\\', '"']
  else if c = '\\' then ['\\', '\\']
  else if c = Char.ofNat 8 then ['\\', 'b']
  else if c = Char.ofNat 12 then ['\\', 'f']
  else if c = '\n' then ['\\', 'n']
  else if c = '\r' then ['\\', 'r']
  else if c = '\t' then ['\\', 't']
  else if c.toNat < 32 then
    ['\\', 'u', '0', '0', hexDigitChar (c.toNat / 16), hexDigitChar (c.toNat % 16)]
  else [c]

/-- Escape every character of a string body. -/
def escapeList : List Char → List Char
  | [] => []
  | c :: rest => escapeChar c ++ escapeList rest

/-- A JSON string literal: `"` + escaped body + `"`. -/
def encodeJString (s : String) : List Char :=
  '"' :: (escapeList s.data ++ ['"'])

/-- The items of a section object at nesting depth 2 (four-space indent),
joined by `',\n'`. -/
def encodeSectionItems : SectionMap → List Char
  | [] => []
  | (k, v) :: rest =>
    [' ', ' ', ' ', ' '] ++ encodeJString k ++ [':', ' '] ++ encodeJString v ++
      (match rest with
       | [] => []
       | _ :: _ => [',', '\n'] ++ encodeSectionItems rest)

/-- The text that follows one section item: nothing if it is the last,
otherwise the `',\n'` separator and the remaining items. -/
def sectionSep (sec : SectionMap) : List Char :=
  match sec with
  | [] => []
  | _ :: _ => ',' :: '\n' :: encodeSectionItems sec

/-- A section object as `json.dump` renders it at depth 1. -/
def encodeSection (sec : SectionMap) : List Char :=
  match sec with
  | [] => ['{', '}']
  | _ :: _ => ['{', '\n'] ++ encodeSectionItems sec ++ ['\n', ' ', ' ', '}']

/-- The items of the top-level object (two-space indent), joined by `',\n'`. -/
def encodeDocItems : Document → List Char
  | [] => []
  | (s, sec) :: rest =>
    [' ', ' '] ++ encodeJString s ++ [':', ' '] ++ encodeSection sec ++
      (match rest with
       | [] => []
       | _ :: _ => [',', '\n'] ++ encodeDocItems rest)

/-- The text that follows one top-level item: nothing if it is the last,
otherwise the `',\n'` separator and the remaining items. -/
def docSep (doc : Document) : List Char :=
  match doc with
  | [] => []
  | _ :: _ => ',' :: '\n' :: encodeDocItems doc

/-- The exact text `json.dump(data, f, ensure_ascii=False, indent=2)` writes
for a two-level string mapping (`add-vin-translations.py` line 420). -/
def saveDocument (doc : Document) : String :=
  String.mk
    (match doc with
     | [] => ['{', '}']
     | _ :: _ => ['{', '\n'] ++ encodeDocItems doc ++ ['\n', '}'])

/-- JSON insignificant whitespace (RFC 8259 / CPython's `WHITESPACE`). -/
def isJsonWs (c : Char) : Bool :=
  c = ' ' || c = '\t' || c = '\n' || c = '\r'

/-- Drop leading JSON whitespace. -/
def skipWs : List Char → List Char
  | [] => []
  | c :: rest => if isJsonWs c then skipWs rest else c :: rest

/-- Consume one expected character. -/
def expectChar (c : Char) (cs : List Char) : Option (List Char) :=
  match cs with
  | [] => none
  | c' :: rest => if c' = c then some rest else none

/-- The numeric value of a hexadecimal digit. -/
def hexVal (c : Char) : Option Nat :=
  if '0' ≤ c ∧ c ≤ '9' then some (c.toNat - 48)
  else if 'a' ≤ c ∧ c ≤ 'f' then some (c.toNat - 87)
  else if 'A' ≤ c ∧ c ≤ 'F' then some (c.toNat - 55)
  else none

/-- A `\uXXXX` code point as a `Char`; surrogate code units are rejected
(Lean characters are Unicode scalar values). -/
def charFromCode (n : Nat) : Option Char :=
  if n < 55296 ∨ (57344 ≤ n ∧ n < 1114112) then some (Char.ofNat n) else none

/-- The single-character JSON escapes accepted after a backslash. -/
def unescapeChar (c : Char) : Option Char :=
  if c = '"' then some '"'
  else if c = '\\' then some '\\'
  else if c = '/' then some '/'
  else if c = 'b' then some (Char.ofNat 8)
  else if c = 'f' then some (Char.ofNat 12)
  else if c = 'n' then some '\n'
  else if c = 'r' then some '\r'
  else if c = 't' then some '\t'
  else none

/-- Parse the body of a JSON string literal after the opening quote, up to and
including the closing quote; raw control characters are rejected (`json.load`
runs with `strict=True`). -/
def parseStringChars : List Char → Option (List Char × List Char)
  | [] => none
  | c :: rest =>
    if c = '"' then some ([], rest)
    else if c = '\\' then
      match rest with
      | [] => none
      | e :: rest2 =>
        if e = 'u' then
          match rest2 with
          | a :: b :: c2 :: d :: rest3 =>
            match hexVal a, hexVal b, hexVal c2, hexVal d with
            | some ha, some hb, some hc, some hd =>
              match charFromCode (((ha * 16 + hb) * 16 + hc) * 16 + hd) with
              | some ch =>
                match parseStringChars rest3 with
                | some (s, r) => some (ch :: s, r)
                | none => none
              | none => none
            | _, _, _, _ => none
          | _ => none
        else
          match unescapeChar e with
          | some ch =>
            match parseStringChars rest2 with
            | some (s, r) => some (ch :: s, r)
            | none => none
          | none => none
    else if c.toNat < 32 then none
    else
      match parseStringChars rest with
      | some (s, r) => some (c :: s, r)
      | none => none

/-- Parse a JSON string literal. -/
def parseJString (cs : List Char) : Option (String × List Char) :=
  match cs with
  | [] => none
  | c :: rest =>
    if c = '"' then
      match parseStringChars rest with
      | some (s, r) => some (String.mk s, r)
      | none => none
    else none

/-- CPython's decoder collects an object's members as a pair list and then
builds `dict(pairs)`: repeated keys keep the first position with the last
value. -/
def buildDict {α : Type} (ms : List (String × α)) : List (String × α) :=
  ms.foldl (fun d m => dictSet d m.1 m.2) []

/-- Parse the members of a string-to-string object, positioned at the first
member's opening quote; consumes the closing `'\x7d'`.  `fuel` bounds the
number of members (any value at least the member count gives the same
result). -/
def parseSectionMembers (fuel : Nat) (cs : List Char) :
    Option (List (String × String) × List Char) :=
  match fuel with
  | 0 => none
  | f + 1 =>
    match parseJString cs with
    | none => none
    | some (k, cs1) =>
      match expectChar ':' (skipWs cs1) with
      | none => none
      | some cs2 =>
        match parseJString (skipWs cs2) with
        | none => none
        | some (v, cs3) =>
          match skipWs cs3 with
          | [] => none
          | c :: cs4 =>
            if c = ',' then
              match parseSectionMembers f (skipWs cs4) with
              | some (ms, r) => some ((k, v) :: ms, r)
              | none => none
            else if c = '}' then some ([(k, v)], cs4)
            else none

/-- Parse a section object: a JSON object whose values are strings. -/
def parseSection (fuel : Nat) (cs : List Char) : Option (SectionMap × List Char) :=
  match expectChar '{' (skipWs cs) with
  | none => none
  | some cs1 =>
    match skipWs cs1 with
    | [] => none
    | c :: cs2 =>
      if c = '}' then some ([], cs2)
      else
        match parseSectionMembers fuel (c :: cs2) with
        | some (ms, r) => some (buildDict ms, r)
        | none => none

/-- Parse the members of the top-level object, positioned at the first
member's opening quote; consumes the closing `'\x7d'`. -/
def parseDocMembers (fuel : Nat) (cs : List Char) :
    Option (List (String × SectionMap) × List Char) :=
  match fuel with
  | 0 => none
  | f + 1 =>
    match parseJString cs with
    | none => none
    | some (k, cs1) =>
      match expectChar ':' (skipWs cs1) with
      | none => none
      | some cs2 =>
        match parseSection (f + 1) cs2 with
        | none => none
        | some (sec, cs3) =>
          match skipWs cs3 with
          | [] => none
          | c :: cs4 =>
            if c = ',' then
              match parseDocMembers f (skipWs cs4) with
              | some (ms, r) => some ((k, sec) :: ms, r)
              | none => none
            else if c = '}' then some ([(k, sec)], cs4)
            else none

/-- The document `json.load` yields from a file's text, for files of the
two-level string-mapping shape the scripts read; trailing non-whitespace
content is an error (`json.load` raises `Extra data`). -/
def loadDocument (s : String) : Option Document :=
  let cs := s.data
  let top : Option (List (String × SectionMap) × List Char) :=
    match expectChar '{' (skipWs cs) with
    | none => none
    | some cs1 =>
      match skipWs cs1 with
      | [] => none
      | c :: cs2 =>
        if c = '}' then some ([], cs2)
        else parseDocMembers (cs.length + 1) (c :: cs2)
  match top with
  | none => none
  | some (ms, r) => if skipWs r = [] then some (buildDict ms) else none

/-!
Persistence model for the write step.  Both scripts write with
`with open(file_path, 'w', encoding='utf-8') as f: json.dump(data, f, ...)`:
opening an existing file with mode `'w'` truncates it to length zero
immediately, after which the serialized text is appended left to right.  An
interruption (disk full, power loss, kill) can therefore leave on disk any
state of `inPlaceWriteStates`: the empty file or a proper front part of the
new text.  The previous content is destroyed at `open` time.
-/

/-- Every on-disk content reachable while the in-place write of `doc` is in
progress (in order: just-truncated, then growing fronts of the new text). -/
def inPlaceWriteStates (doc : Document) : List String :=
  (List.range ((saveDocument doc).length + 1)).map
    (fun n => ((saveDocument doc).data.take n).asString)

/-- Atomicity of a write: every reachable intermediate state is either the
old content or the new content in full. -/
def atomicStates (oldContent newContent : String) (states : List String) : Prop :=
  ∀ s ∈ states, s = oldContent ∨ s = newContent

instance (o n : String) (l : List String) : Decidable (atomicStates o n l) := by
  unfold atomicStates; infer_instance

/-- Wellformedness of a two-level mapping: the Python `dict`-of-`dict`s the
scripts manipulate cannot repeat a section name or a key within a section,
so its association-list image has pairwise-distinct keys at both levels. -/
def mappingWF (doc : Document) : Prop :=
  (doc.map Prod.fst).Nodup ∧ ∀ p ∈ doc, (p.2.map Prod.fst).Nodup

instance (doc : Document) : Decidable (mappingWF doc) := by
  unfold mappingWF; infer_instance

/-- Number of patch keys of one section that are absent from the
corresponding document section. -/
def countAddedSec (sec keys : SectionMap) : Nat :=
  keys.countP (fun kv => !(dictHas sec kv.1))

/-- Number of patch keys of one section present in the document section with
a different value. -/
def countUpdatedSec (sec keys : SectionMap) : Nat :=
  keys.countP (fun kv =>
    match dictGet sec kv.1 with
    | some v0 => decide (v0 ≠ kv.2)
    | none => false)

/-- Total number of patch keys absent from the starting document (`added`). -/
def countAdded (doc : Document) (patch : Patch) : Nat :=
  (patch.map (fun p => countAddedSec ((dictGet doc p.1).getD []) p.2)).sum

/-- Total number of patch keys present in the starting document with a
different value (`updated`). -/
def countUpdated (doc : Document) (patch : Patch) : Nat :=
  (patch.map (fun p => countUpdatedSec ((dictGet doc p.1).getD []) p.2)).sum

/-- The patch names section `s`. -/
def mentionsSec (patch : Patch) (s : String) : Prop :=
  ∃ p ∈ patch, p.1 = s

/-- The patch names key `k` of section `s`. -/
def mentionsKey (patch : Patch) (s k : String) : Prop :=
  ∃ p ∈ patch, p.1 = s ∧ k ∈ p.2.map Prod.fst

instance (patch : Patch) (s : String) : Decidable (mentionsSec patch s) := by
  unfold mentionsSec; infer_instance

instance (patch : Patch) (s k : String) : Decidable (mentionsKey patch s k) := by
  unfold mentionsKey; infer_instance

/-!
Dictionary lemmas: how `dictGet` interacts with `dictSet`, membership and
permutations.
-/

theorem dictGet_dictSet_self {α : Type} (d : List (String × α)) (k : String) (v : α) :
    dictGet (dictSet d k v) k = some v := by
  induction d with
  | nil => simp [dictSet, dictGet]
  | cons p rest ih =>
    obtain ⟨k', v'⟩ := p
    by_cases h : k' = k
    · simp [dictSet, dictGet, h]
    · simp [dictSet, dictGet, h, ih]

theorem dictGet_dictSet_ne {α : Type} (d : List (String × α)) {k k' : String} (v : α)
    (h : k' ≠ k) : dictGet (dictSet d k v) k' = dictGet d k' := by
  induction d with
  | nil => simp [dictSet, dictGet, Ne.symm h]
  | cons p rest ih =>
    obtain ⟨k0, v0⟩ := p
    by_cases h0 : k0 = k
    · subst h0
      simp [dictSet, dictGet, Ne.symm h]
    · simp [dictSet, dictGet, h0, ih]

theorem dictHas_dictSet_self {α : Type} (d : List (String × α)) (k : String) (v : α) :
    dictHas (dictSet d k v) k = true := by
  simp [dictHas, dictGet_dictSet_self]

theorem dictSet_eq_of_get {α : Type} {d : List (String × α)} {k : String} {v : α}
    (h : dictGet d k = some v) : dictSet d k v = d := by
  induction d with
  | nil => simp [dictGet] at h
  | cons p rest ih =>
    obtain ⟨k0, v0⟩ := p
    by_cases h0 : k0 = k
    · subst h0
      simp [dictGet] at h
      simp [dictSet, h]
    · simp [dictGet, h0] at h
      simp [dictSet, h0, ih h]

theorem dictGet_isSome_dictSet {α : Type} (d : List (String × α)) (k k' : String) (v : α)
    (h : (dictGet d k').isSome) : (dictGet (dictSet d k v) k').isSome := by
  by_cases hk : k' = k
  · subst hk; simp [dictGet_dictSet_self]
  · rwa [dictGet_dictSet_ne d v hk]

theorem mem_dictSet {α : Type} {d : List (String × α)} {k : String} {v : α}
    {q : String × α} (h : q ∈ dictSet d k v) : q ∈ d ∨ q = (k, v) := by
  induction d with
  | nil => simp [dictSet] at h; right; exact h
  | cons p rest ih =>
    obtain ⟨k0, v0⟩ := p
    by_cases h0 : k0 = k
    · subst h0
      simp [dictSet] at h
      rcases h with h | h
      · right; simp [h]
      · left; simp [h]
    · simp [dictSet, h0] at h
      rcases h with h | h
      · left; simp [h]
      · rcases ih h with hh | hh
        · left; simp [hh]
        · right; exact hh

theorem nodup_keys_dictSet {α : Type} (d : List (String × α)) (k : String) (v : α)
    (h : (d.map Prod.fst).Nodup) : ((dictSet d k v).map Prod.fst).Nodup := by
  induction d with
  | nil => simp [dictSet]
  | cons p rest ih =>
    obtain ⟨k0, v0⟩ := p
    simp only [List.map_cons, List.nodup_cons] at h
    by_cases h0 : k0 = k
    · subst h0
      simpa [dictSet] using h
    · have hmem : k0 ∉ (dictSet rest k v).map Prod.fst := by
        intro hc
        rcases List.mem_map.mp hc with ⟨q, hq, hq1⟩
        rcases mem_dictSet hq with hin | heq
        · exact h.1 (hq1 ▸ List.mem_map_of_mem Prod.fst hin)
        · apply h0
          rw [heq] at hq1
          exact hq1.symm
      simp only [dictSet, if_neg h0, List.map_cons, List.nodup_cons]
      exact ⟨hmem, ih h.2⟩

theorem mem_of_dictGet_eq_some {α : Type} {d : List (String × α)} {k : String} {v : α}
    (h : dictGet d k = some v) : (k, v) ∈ d := by
  induction d with
  | nil => simp [dictGet] at h
  | cons p rest ih =>
    obtain ⟨k0, v0⟩ := p
    by_cases h0 : k0 = k
    · subst h0
      simp [dictGet] at h
      simp [h]
    · simp [dictGet, h0] at h
      simp [ih h]

theorem dictGet_eq_none_iff {α : Type} (d : List (String × α)) (k : String) :
    dictGet d k = none ↔ k ∉ d.map Prod.fst := by
  induction d with
  | nil => simp [dictGet]
  | cons p rest ih =>
    obtain ⟨k0, v0⟩ := p
    by_cases h0 : k0 = k
    · subst h0; simp [dictGet]
    · simp [dictGet, h0, ih, Ne.symm h0]

theorem dictGet_eq_some_of_mem {α : Type} {d : List (String × α)} {k : String} {v : α}
    (hnd : (d.map Prod.fst).Nodup) (h : (k, v) ∈ d) : dictGet d k = some v := by
  induction d with
  | nil => simp at h
  | cons p rest ih =>
    obtain ⟨k0, v0⟩ := p
    simp only [List.map_cons, List.nodup_cons] at hnd
    rcases List.mem_cons.mp h with h1 | h1
    · injection h1 with e1 e2
      subst e1
      subst e2
      simp [dictGet]
    · have hk : k0 ≠ k := by
        intro hc
        subst hc
        exact hnd.1 (List.mem_map_of_mem Prod.fst h1)
      simp [dictGet, hk, ih hnd.2 h1]

theorem dictGet_perm {α : Type} {d d' : List (String × α)}
    (hnd : (d.map Prod.fst).Nodup) (hp : d.Perm d') (k : String) :
    dictGet d' k = dictGet d k := by
  cases hv : dictGet d k with
  | some v =>
    have hmem : (k, v) ∈ d' := hp.mem_iff.mp (mem_of_dictGet_eq_some hv)
    have hnd' : (d'.map Prod.fst).Nodup := ((hp.map Prod.fst).nodup_iff).mp hnd
    exact dictGet_eq_some_of_mem hnd' hmem
  | none =>
    have hk : k ∉ d.map Prod.fst := (dictGet_eq_none_iff d k).mp hv
    have : k ∉ d'.map Prod.fst := fun hc => hk ((hp.map Prod.fst).mem_iff.mpr hc)
    exact (dictGet_eq_none_iff d' k).mpr this

/-!
Lemmas about the key loop `applyKeys`.
-/

theorem applyKeys_get_not_mem {k : String} (sec keys : SectionMap) (stats : MergeStats)
    (h : k ∉ keys.map Prod.fst) :
    dictGet (applyKeys sec keys stats).1 k = dictGet sec k := by
  induction keys generalizing sec stats with
  | nil => simp [applyKeys]
  | cons p rest ih =>
    obtain ⟨k0, v0⟩ := p
    simp only [List.map_cons, List.mem_cons, not_or] at h
    simp only [applyKeys]
    rw [ih _ _ h.2]
    exact dictGet_dictSet_ne sec v0 h.1

theorem applyKeys_get_mem {k v : String} (sec : SectionMap) {keys : SectionMap}
    (stats : MergeStats) (hnd : (keys.map Prod.fst).Nodup) (h : (k, v) ∈ keys) :
    dictGet (applyKeys sec keys stats).1 k = some v := by
  induction keys generalizing sec stats with
  | nil => simp at h
  | cons p rest ih =>
    obtain ⟨k0, v0⟩ := p
    simp only [List.map_cons, List.nodup_cons] at hnd
    rcases List.mem_cons.mp h with h1 | h1
    · injection h1 with e1 e2
      subst e1
      subst e2
      simp only [applyKeys]
      rw [applyKeys_get_not_mem _ _ _ hnd.1]
      exact dictGet_dictSet_self sec k v
    · simp only [applyKeys]
      exact ih _ _ hnd.2 h1

theorem applyKeys_isSome {k : String} (sec keys : SectionMap) (stats : MergeStats)
    (h : (dictGet sec k).isSome) :
    (dictGet (applyKeys sec keys stats).1 k).isSome := by
  induction keys generalizing sec stats with
  | nil => simpa [applyKeys] using h
  | cons p rest ih =>
    obtain ⟨k0, v0⟩ := p
    simp only [applyKeys]
    exact ih _ _ (dictGet_isSome_dictSet sec k0 k v0 h)

theorem countAddedSec_dictSet (sec : SectionMap) {keys : SectionMap} {k0 : String}
    (v0 : String) (h : k0 ∉ keys.map Prod.fst) :
    countAddedSec (dictSet sec k0 v0) keys = countAddedSec sec keys := by
  unfold countAddedSec
  apply List.countP_congr
  intro kv hkv
  have hne : kv.1 ≠ k0 := by
    intro hc
    exact h (hc ▸ List.mem_map_of_mem Prod.fst hkv)
  simp [dictHas, dictGet_dictSet_ne sec v0 hne]

theorem countUpdatedSec_dictSet (sec : SectionMap) {keys : SectionMap} {k0 : String}
    (v0 : String) (h : k0 ∉ keys.map Prod.fst) :
    countUpdatedSec (dictSet sec k0 v0) keys = countUpdatedSec sec keys := by
  unfold countUpdatedSec
  apply List.countP_congr
  intro kv hkv
  have hne : kv.1 ≠ k0 := by
    intro hc
    exact h (hc ▸ List.mem_map_of_mem Prod.fst hkv)
  rw [dictGet_dictSet_ne sec v0 hne]

theorem applyKeys_added (sec : SectionMap) {keys : SectionMap} (stats : MergeStats)
    (hnd : (keys.map Prod.fst).Nodup) :
    (applyKeys sec keys stats).2.added = stats.added + countAddedSec sec keys := by
  induction keys generalizing sec stats with
  | nil => simp [applyKeys, countAddedSec]
  | cons p rest ih =>
    obtain ⟨k0, v0⟩ := p
    simp only [List.map_cons, List.nodup_cons] at hnd
    simp only [applyKeys]
    have hcount : countAddedSec sec ((k0, v0) :: rest) =
        countAddedSec sec rest + (if dictHas sec k0 then 0 else 1) := by
      unfold countAddedSec
      rw [List.countP_cons]
      by_cases hh : dictHas sec k0 <;> simp [hh]
    rcases hg : dictGet sec k0 with _ | v1
    · have hh : dictHas sec k0 = false := by simp [dictHas, hg]
      rw [ih _ _ hnd.2, countAddedSec_dictSet sec v0 hnd.1, hcount]
      simp [hh]
      omega
    · have hh : dictHas sec k0 = true := by simp [dictHas, hg]
      have hadd : ∀ st : MergeStats,
          (applyKeys (dictSet sec k0 v0) rest st).2.added =
            st.added + countAddedSec sec rest := by
        intro st
        rw [ih _ _ hnd.2, countAddedSec_dictSet sec v0 hnd.1]
      by_cases hv : v1 ≠ v0 <;> simp [hv, hadd, hcount, hh]

theorem applyKeys_updated (sec : SectionMap) {keys : SectionMap} (stats : MergeStats)
    (hnd : (keys.map Prod.fst).Nodup) :
    (applyKeys sec keys stats).2.updated = stats.updated + countUpdatedSec sec keys := by
  induction keys generalizing sec stats with
  | nil => simp [applyKeys, countUpdatedSec]
  | cons p rest ih =>
    obtain ⟨k0, v0⟩ := p
    simp only [List.map_cons, List.nodup_cons] at hnd
    simp only [applyKeys]
    have hupd : ∀ st : MergeStats,
        (applyKeys (dictSet sec k0 v0) rest st).2.updated =
          st.updated + countUpdatedSec sec rest := by
      intro st
      rw [ih _ _ hnd.2, countUpdatedSec_dictSet sec v0 hnd.1]
    have hcount : countUpdatedSec sec ((k0, v0) :: rest) =
        countUpdatedSec sec rest +
          (match dictGet sec k0 with
           | some w => if w ≠ v0 then 1 else 0
           | none => 0) := by
      unfold countUpdatedSec
      rw [List.countP_cons]
      rcases hg : dictGet sec k0 with _ | w
      · simp
      · by_cases hw : w ≠ v0 <;> simp [hw]
    rcases hg : dictGet sec k0 with _ | v1
    · rw [hupd, hcount, hg]
      simp
    · by_cases hv : v1 ≠ v0 <;> simp [hv, hupd, hcount, hg] <;> omega

theorem applyKeys_noop {sec keys : SectionMap} {stats : MergeStats}
    (h : ∀ kv ∈ keys, dictGet sec kv.1 = some kv.2) :
    applyKeys sec keys stats = (sec, stats) := by
  induction keys with
  | nil => simp [applyKeys]
  | cons p rest ih =>
    obtain ⟨k0, v0⟩ := p
    have h0 : dictGet sec k0 = some v0 := h (k0, v0) (by simp)
    simp only [applyKeys, h0]
    rw [dictSet_eq_of_get h0]
    simp only [ne_eq, not_true_eq_false, if_neg (by simp : ¬v0 ≠ v0)]
    exact ih (fun kv hkv => h kv (List.mem_cons_of_mem _ hkv))

theorem nodup_keys_applyKeys (sec keys : SectionMap) (stats : MergeStats)
    (h : (sec.map Prod.fst).Nodup) :
    ((applyKeys sec keys stats).1.map Prod.fst).Nodup := by
  induction keys generalizing sec stats with
  | nil => simpa [applyKeys] using h
  | cons p rest ih =>
    obtain ⟨k0, v0⟩ := p
    simp only [applyKeys]
    exact ih _ _ (nodup_keys_dictSet sec k0 v0 h)

/-!
Lemmas about the section loop `applyPatchGo`.
-/

theorem dictGet_ensure {α : Type} (doc : List (String × α)) (s s' : String) (d0 : α) :
    dictGet (if dictHas doc s then doc else dictSet doc s d0) s' =
      if s' = s ∧ (dictGet doc s).isNone = true then some d0 else dictGet doc s' := by
  by_cases hd : dictHas doc s
  · rcases hg : dictGet doc s with _ | w
    · simp [dictHas, hg] at hd
    · simp only [hd, if_true]
      by_cases hs : s' = s <;> simp [hs, hg]
  · rcases hg : dictGet doc s with _ | w
    · have hdf : dictHas doc s = false := by simp [dictHas, hg]
      simp only [hdf, Bool.false_eq_true, if_false]
      by_cases hs : s' = s
      · subst hs
        simp [hg, dictGet_dictSet_self]
      · simp [hs, dictGet_dictSet_ne doc d0 hs, hg]
    · simp [dictHas, hg] at hd

theorem dictGet_after_step (doc : Document) (s0 : String) (sec' : SectionMap)
    {s : String} (hs : s ≠ s0) :
    dictGet (dictSet (if dictHas doc s0 then doc else dictSet doc s0 []) s0 sec') s =
      dictGet doc s := by
  rw [dictGet_dictSet_ne _ _ hs, dictGet_ensure]
  simp [hs]

theorem docGet_after_step (doc : Document) (s0 : String) (sec' : SectionMap)
    {s k : String} (hs : s ≠ s0) :
    docGet (dictSet (if dictHas doc s0 then doc else dictSet doc s0 []) s0 sec') s k =
      docGet doc s k := by
  unfold docGet
  rw [dictGet_after_step doc s0 sec' hs]

theorem dictHas_after_step (doc : Document) (s0 : String) (sec' : SectionMap)
    (s : String) :
    dictHas (dictSet (if dictHas doc s0 then doc else dictSet doc s0 []) s0 sec') s =
      (if s = s0 then true else dictHas doc s) := by
  by_cases hs : s = s0
  · subst hs
    simp [dictHas, dictGet_dictSet_self]
  · rw [if_neg hs]
    exact congrArg Option.isSome (dictGet_after_step doc s0 sec' hs)

theorem applyPatchGo_get_sec_not_mentioned (doc : Document) (patch : Patch)
    (stats : MergeStats) {s : String} (h : ∀ p ∈ patch, p.1 ≠ s) :
    dictGet (applyPatchGo doc patch stats).1 s = dictGet doc s := by
  induction patch generalizing doc stats with
  | nil => simp [applyPatchGo]
  | cons p rest ih =>
    obtain ⟨s0, keys⟩ := p
    have hs0 : s0 ≠ s := h (s0, keys) (by simp)
    simp only [applyPatchGo]
    rw [ih _ _ (fun q hq => h q (List.mem_cons_of_mem _ hq))]
    rw [dictGet_dictSet_ne _ _ (Ne.symm hs0)]
    rw [dictGet_ensure]
    simp [Ne.symm hs0]

theorem applyPatchGo_docGet_not_mentioned (doc : Document) (patch : Patch)
    (stats : MergeStats) {s k : String}
    (h : ∀ p ∈ patch, p.1 = s → k ∉ p.2.map Prod.fst) :
    docGet (applyPatchGo doc patch stats).1 s k = docGet doc s k := by
  induction patch generalizing doc stats with
  | nil => simp [applyPatchGo]
  | cons p rest ih =>
    obtain ⟨s0, keys⟩ := p
    simp only [applyPatchGo]
    rw [ih _ _ (fun q hq hqs => h q (List.mem_cons_of_mem _ hq) hqs)]
    unfold docGet
    by_cases hs : s = s0
    · subst hs
      have hk : k ∉ keys.map Prod.fst := h (s, keys) (by simp) rfl
      rw [dictGet_dictSet_self]
      simp only [Option.some_bind]
      rw [applyKeys_get_not_mem _ _ _ hk]
      rw [dictGet_ensure]
      rcases hg : dictGet doc s with _ | sec0 <;> simp [hg, dictGet]
    · rw [dictGet_dictSet_ne _ _ hs]
      rw [dictGet_ensure]
      simp [hs]

theorem applyPatchGo_has_preserved (doc : Document) (patch : Patch) (stats : MergeStats)
    {s : String} (h : dictHas doc s = true) :
    dictHas (applyPatchGo doc patch stats).1 s = true := by
  induction patch generalizing doc stats with
  | nil => simpa [applyPatchGo] using h
  | cons p rest ih =>
    obtain ⟨s0, keys⟩ := p
    simp only [applyPatchGo]
    apply ih
    rw [dictHas_after_step]
    by_cases hs : s = s0 <;> simp [hs, h]

theorem applyPatchGo_has_mentioned (doc : Document) (patch : Patch) (stats : MergeStats)
    {s : String} (h : s ∈ patch.map Prod.fst) :
    dictHas (applyPatchGo doc patch stats).1 s = true := by
  induction patch generalizing doc stats with
  | nil => simp at h
  | cons p rest ih =>
    obtain ⟨s0, keys⟩ := p
    simp only [List.map_cons, List.mem_cons] at h
    simp only [applyPatchGo]
    by_cases h1 : s ∈ rest.map Prod.fst
    · exact ih _ _ h1
    · have hs : s = s0 := by
        rcases h with h2 | h2
        · exact h2
        · exact absurd h2 h1
      subst hs
      apply applyPatchGo_has_preserved
      rw [dictHas_after_step]
      simp

theorem applyPatchGo_isSome (doc : Document) (patch : Patch) (stats : MergeStats)
    {s k : String} (h : (docGet doc s k).isSome) :
    (docGet (applyPatchGo doc patch stats).1 s k).isSome := by
  induction patch generalizing doc stats with
  | nil => simpa [applyPatchGo] using h
  | cons p rest ih =>
    obtain ⟨s0, keys⟩ := p
    simp only [applyPatchGo]
    apply ih
    by_cases hs : s = s0
    · subst hs
      rcases hg : dictGet doc s with _ | sec0
      · unfold docGet at h
        simp [hg] at h
      · have hsec : (dictGet (if dictHas doc s then doc else dictSet doc s []) s).getD [] =
            sec0 := by
          rw [dictGet_ensure]
          simp [hg]
        unfold docGet
        rw [dictGet_dictSet_self]
        simp only [Option.some_bind]
        rw [hsec]
        apply applyKeys_isSome
        unfold docGet at h
        rw [hg] at h
        simpa using h
    · rw [docGet_after_step doc s0 _ hs]
      exact h

theorem applyPatchGo_wins (doc : Document) {patch : Patch} (stats : MergeStats)
    {s k v : String} {keys : SectionMap}
    (hnd : (patch.map Prod.fst).Nodup) (hknd : ∀ p ∈ patch, (p.2.map Prod.fst).Nodup)
    (hmem : (s, keys) ∈ patch) (hkv : (k, v) ∈ keys) :
    docGet (applyPatchGo doc patch stats).1 s k = some v := by
  induction patch generalizing doc stats with
  | nil => simp at hmem
  | cons p rest ih =>
    obtain ⟨s0, keys0⟩ := p
    simp only [List.map_cons, List.nodup_cons] at hnd
    simp only [applyPatchGo]
    rcases List.mem_cons.mp hmem with h1 | h1
    · injection h1 with e1 e2
      subst e1
      subst e2
      have hframe : ∀ q ∈ rest, q.1 = s → k ∉ q.2.map Prod.fst := by
        intro q hq hqs
        exact absurd (hqs ▸ List.mem_map_of_mem Prod.fst hq) hnd.1
      rw [applyPatchGo_docGet_not_mentioned _ _ _ hframe]
      unfold docGet
      rw [dictGet_dictSet_self]
      simp only [Option.some_bind]
      exact applyKeys_get_mem _ _ (hknd (s, keys) (by simp)) hkv
    · exact ih _ _ hnd.2 (fun q hq => hknd q (List.mem_cons_of_mem _ hq)) h1

theorem applyPatchGo_noop {doc : Document} {patch : Patch} {stats : MergeStats}
    (h : ∀ p ∈ patch, dictHas doc p.1 = true ∧
      ∀ kv ∈ p.2, docGet doc p.1 kv.1 = some kv.2) :
    applyPatchGo doc patch stats = (doc, stats) := by
  induction patch with
  | nil => simp [applyPatchGo]
  | cons p rest ih =>
    obtain ⟨s0, keys0⟩ := p
    obtain ⟨hhas, hvals⟩ := h (s0, keys0) (by simp)
    rcases hg : dictGet doc s0 with _ | sec0
    · simp [dictHas, hg] at hhas
    · simp only [applyPatchGo, hhas, if_true, hg, Option.getD_some]
      rw [applyKeys_noop (fun kv hkv => by
        have := hvals kv hkv
        simpa [docGet, hg] using this)]
      rw [dictSet_eq_of_get hg]
      exact ih (fun q hq => h q (List.mem_cons_of_mem _ hq))

theorem applyPatchGo_added (doc : Document) {patch : Patch} (stats : MergeStats)
    (hnd : (patch.map Prod.fst).Nodup) (hknd : ∀ p ∈ patch, (p.2.map Prod.fst).Nodup) :
    (applyPatchGo doc patch stats).2.added = stats.added + countAdded doc patch := by
  induction patch generalizing doc stats with
  | nil => simp [applyPatchGo, countAdded]
  | cons p rest ih =>
    obtain ⟨s0, keys0⟩ := p
    simp only [List.map_cons, List.nodup_cons] at hnd
    simp only [applyPatchGo]
    rw [ih _ _ hnd.2 (fun q hq => hknd q (List.mem_cons_of_mem _ hq))]
    rw [applyKeys_added _ _ (hknd (s0, keys0) (by simp))]
    have hsec : ((dictGet (if dictHas doc s0 then doc else dictSet doc s0 []) s0).getD []) =
        (dictGet doc s0).getD [] := by
      rw [dictGet_ensure]
      rcases hg : dictGet doc s0 with _ | sec0 <;> simp [hg]
    have hrest : countAdded (dictSet (if dictHas doc s0 then doc else dictSet doc s0 [])
        s0 (applyKeys ((dictGet (if dictHas doc s0 then doc else dictSet doc s0 []) s0).getD [])
          keys0 stats).1) rest = countAdded doc rest := by
      unfold countAdded
      apply congrArg
      apply List.map_congr_left
      intro q hq
      have hqs : q.1 ≠ s0 := by
        intro hc
        exact hnd.1 (hc ▸ List.mem_map_of_mem Prod.fst hq)
      rw [dictGet_dictSet_ne _ _ hqs, dictGet_ensure]
      simp [hqs]
    rw [hrest, hsec]
    unfold countAdded
    simp only [List.map_cons, List.sum_cons]
    omega

theorem applyPatchGo_updated (doc : Document) {patch : Patch} (stats : MergeStats)
    (hnd : (patch.map Prod.fst).Nodup) (hknd : ∀ p ∈ patch, (p.2.map Prod.fst).Nodup) :
    (applyPatchGo doc patch stats).2.updated = stats.updated + countUpdated doc patch := by
  induction patch generalizing doc stats with
  | nil => simp [applyPatchGo, countUpdated]
  | cons p rest ih =>
    obtain ⟨s0, keys0⟩ := p
    simp only [List.map_cons, List.nodup_cons] at hnd
    simp only [applyPatchGo]
    rw [ih _ _ hnd.2 (fun q hq => hknd q (List.mem_cons_of_mem _ hq))]
    rw [applyKeys_updated _ _ (hknd (s0, keys0) (by simp))]
    have hsec : ((dictGet (if dictHas doc s0 then doc else dictSet doc s0 []) s0).getD []) =
        (dictGet doc s0).getD [] := by
      rw [dictGet_ensure]
      rcases hg : dictGet doc s0 with _ | sec0 <;> simp [hg]
    have hrest : countUpdated (dictSet (if dictHas doc s0 then doc else dictSet doc s0 [])
        s0 (applyKeys ((dictGet (if dictHas doc s0 then doc else dictSet doc s0 []) s0).getD [])
          keys0 stats).1) rest = countUpdated doc rest := by
      unfold countUpdated
      apply congrArg
      apply List.map_congr_left
      intro q hq
      have hqs : q.1 ≠ s0 := by
        intro hc
        exact hnd.1 (hc ▸ List.mem_map_of_mem Prod.fst hq)
      rw [dictGet_dictSet_ne _ _ hqs, dictGet_ensure]
      simp [hqs]
    rw [hrest, hsec]
    unfold countUpdated
    simp only [List.map_cons, List.sum_cons]
    omega

/-!
The Python comparison used by `sorted`: transitivity, totality, and how the
sort interacts with lookup.
-/

theorem charListLt_irrefl (l : List Char) : charListLt l l = false := by
  induction l with
  | nil => rfl
  | cons c cs ih => simp [charListLt, ih]

theorem charListLt_trans {a b c : List Char} (h1 : charListLt a b = true)
    (h2 : charListLt b c = true) : charListLt a c = true := by
  induction a generalizing b c with
  | nil =>
    cases b with
    | nil => simp [charListLt] at h1
    | cons y ys =>
      cases c with
      | nil => simp [charListLt] at h2
      | cons z zs => rfl
  | cons x xs ih =>
    cases b with
    | nil => simp [charListLt] at h1
    | cons y ys =>
      cases c with
      | nil => simp [charListLt] at h2
      | cons z zs =>
        by_cases hxy : x = y <;> by_cases hyz : y = z
        · subst hxy
          subst hyz
          simp only [charListLt, if_pos rfl] at h1 h2 ⊢
          exact ih h1 h2
        · subst hxy
          simp only [charListLt, if_pos rfl, if_neg hyz] at h1 h2
          simp [charListLt, hyz, h2]
        · subst hyz
          simp only [charListLt, if_neg hxy, if_pos rfl] at h1 h2
          simp [charListLt, hxy, h1]
        · simp only [charListLt, if_neg hxy, if_neg hyz, decide_eq_true_eq] at h1 h2
          have hxz : x < z := lt_trans h1 h2
          have hne : x ≠ z := ne_of_lt hxz
          simp [charListLt, hne, hxz]

theorem charListLt_total {a b : List Char} (h : a ≠ b) :
    charListLt a b = true ∨ charListLt b a = true := by
  induction a generalizing b with
  | nil =>
    cases b with
    | nil => exact absurd rfl h
    | cons y ys => left; rfl
  | cons x xs ih =>
    cases b with
    | nil => right; rfl
    | cons y ys =>
      by_cases hxy : x = y
      · subst hxy
        have hne : xs ≠ ys := by
          intro hc
          exact h (by rw [hc])
        rcases ih hne with h1 | h1
        · left; simpa [charListLt] using h1
        · right; simpa [charListLt] using h1
      · rcases lt_or_gt_of_ne hxy with h1 | h1
        · left; simp [charListLt, hxy, h1]
        · right; simp [charListLt, Ne.symm hxy, h1]

theorem pyStrLt_trans {a b c : String} (h1 : pyStrLt a b = true)
    (h2 : pyStrLt b c = true) : pyStrLt a c = true :=
  charListLt_trans h1 h2

theorem pyStrLt_irrefl (a : String) : pyStrLt a a = false :=
  charListLt_irrefl _

theorem pyStrLt_total {a b : String} (h : a ≠ b) :
    pyStrLt a b = true ∨ pyStrLt b a = true := by
  apply charListLt_total
  intro hc
  exact h (String.ext hc)

theorem pyStrLe_trans {a b c : String} (h1 : pyStrLe a b = true)
    (h2 : pyStrLe b c = true) : pyStrLe a c = true := by
  simp only [pyStrLe, Bool.or_eq_true, beq_iff_eq] at h1 h2 ⊢
  rcases h1 with h1 | h1 <;> rcases h2 with h2 | h2
  · left; exact h1.trans h2
  · subst h1; right; exact h2
  · subst h2; right; exact h1
  · right; exact pyStrLt_trans h1 h2

theorem pyStrLe_total (a b : String) : pyStrLe a b = true ∨ pyStrLe b a = true := by
  by_cases h : a = b
  · left; simp [pyStrLe, h]
  · rcases pyStrLt_total h with h1 | h1
    · left; simp [pyStrLe, h1]
    · right; simp [pyStrLe, h1]

theorem pairLe_trans (a b c : String × String) (h1 : pairLe a b = true)
    (h2 : pairLe b c = true) : pairLe a c = true := by
  unfold pairLe at h1 h2 ⊢
  by_cases hab : a.1 = b.1 <;> by_cases hbc : b.1 = c.1
  · rw [if_pos hab] at h1
    rw [if_pos hbc] at h2
    rw [if_pos (hab.trans hbc)]
    exact pyStrLe_trans h1 h2
  · have hac : a.1 ≠ c.1 := by rw [hab]; exact hbc
    rw [if_neg hbc] at h2
    rw [if_neg hac, hab]
    exact h2
  · have hac : a.1 ≠ c.1 := by rw [← hbc]; exact hab
    rw [if_neg hab] at h1
    rw [if_neg hac, ← hbc]
    exact h1
  · rw [if_neg hab] at h1
    rw [if_neg hbc] at h2
    have hlt : pyStrLt a.1 c.1 = true := pyStrLt_trans h1 h2
    have hac : a.1 ≠ c.1 := by
      intro hc
      rw [← hc] at h2
      have := pyStrLt_trans h1 h2
      rw [pyStrLt_irrefl] at this
      exact Bool.false_ne_true this
    rw [if_neg hac]
    exact hlt

theorem pairLe_total (a b : String × String) : pairLe a b = true ∨ pairLe b a = true := by
  unfold pairLe
  by_cases hab : a.1 = b.1
  · rw [if_pos hab, if_pos hab.symm]
    exact pyStrLe_total a.2 b.2
  · rw [if_neg hab, if_neg (Ne.symm hab)]
    exact pyStrLt_total hab

instance : IsTotal (String × String) (fun a b => pairLe a b = true) :=
  ⟨pairLe_total⟩

instance : IsTrans (String × String) (fun a b => pairLe a b = true) :=
  ⟨pairLe_trans⟩

theorem sorted_insertionSort_pairLe (sec : SectionMap) :
    (List.insertionSort (fun a b => pairLe a b = true) sec).Pairwise
      (fun a b => pairLe a b = true) :=
  List.sorted_insertionSort (fun a b => pairLe a b = true) sec

theorem dictGet_insertionSort (sec : SectionMap) (k : String)
    (h : (sec.map Prod.fst).Nodup) :
    dictGet (List.insertionSort (fun a b => pairLe a b = true) sec) k =
      dictGet sec k :=
  dictGet_perm h (List.perm_insertionSort (fun a b => pairLe a b = true) sec).symm k

/-!
Lemmas about `buildDict` (dictionary construction in the JSON decoder).
-/

theorem dictSet_append {α : Type} (d : List (String × α)) (k : String) (v : α)
    (h : k ∉ d.map Prod.fst) : dictSet d k v = d ++ [(k, v)] := by
  induction d with
  | nil => simp [dictSet]
  | cons p rest ih =>
    obtain ⟨k0, v0⟩ := p
    simp only [List.map_cons, List.mem_cons, not_or] at h
    simp [dictSet, Ne.symm h.1, ih h.2]

theorem foldl_dictSet_append {α : Type} (ms : List (String × α)) :
    ∀ acc : List (String × α), (ms.map Prod.fst).Nodup →
      (∀ x ∈ ms, x.1 ∉ acc.map Prod.fst) →
      List.foldl (fun d m => dictSet d m.1 m.2) acc ms = acc ++ ms := by
  induction ms with
  | nil =>
    intro acc _ _
    simp
  | cons m rest ih =>
    intro acc hnd hdisj
    simp only [List.map_cons, List.nodup_cons] at hnd
    simp only [List.foldl_cons]
    rw [dictSet_append acc m.1 m.2 (hdisj m (by simp))]
    rw [ih (acc ++ [m]) hnd.2]
    · simp
    · intro x hx
      simp only [List.map_append, List.mem_append, not_or]
      refine ⟨hdisj x (List.mem_cons_of_mem _ hx), ?_⟩
      simp only [List.map_cons, List.map_nil, List.mem_singleton]
      intro hc
      exact hnd.1 (hc ▸ List.mem_map_of_mem Prod.fst hx)

theorem buildDict_self {α : Type} (ms : List (String × α))
    (h : (ms.map Prod.fst).Nodup) : buildDict ms = ms := by
  unfold buildDict
  rw [foldl_dictSet_append ms [] h (by simp)]
  simp

/-!
Lemmas about the untyped merge (`mergeSectionV` / `mergeDocV`): a scalar
section reached by a non-empty patch section raises, and the exception
propagates to the per-locale boundary.
-/

theorem mergeSectionV_str_error (v0 : String) {keys : SectionMap} (stats : MergeStats)
    (h : keys ≠ []) : mergeSectionV (PyVal.str v0) keys stats = Except.error () := by
  cases keys with
  | nil => exact absurd rfl h
  | cons kv rest =>
    obtain ⟨k, v⟩ := kv
    rfl

theorem mergeDocV_scalar_error {data : List (String × PyVal)} {patch : Patch}
    {s v0 : String} {keys : SectionMap} (stats : MergeStats)
    (hget : dictGet data s = some (PyVal.str v0))
    (hmem : (s, keys) ∈ patch) (hne : keys ≠ []) :
    mergeDocV data patch stats = Except.error () := by
  induction patch generalizing data stats with
  | nil => simp at hmem
  | cons p rest ih =>
    obtain ⟨s0, keys0⟩ := p
    have hhas : dictHas data s = true := by simp [dictHas, hget]
    simp only [mergeDocV]
    rcases List.mem_cons.mp hmem with h1 | h1
    · injection h1 with e1 e2
      subst e1
      subst e2
      rw [if_pos hhas, hget]
      simp only [Option.getD_some]
      rw [mergeSectionV_str_error v0 stats hne]
    · by_cases hs : s0 = s
      · subst hs
        rw [if_pos hhas, hget]
        simp only [Option.getD_some]
        cases keys0 with
        | nil =>
          simp only [mergeSectionV]
          exact ih _ (by rw [dictGet_dictSet_self]) h1
        | cons kv krest =>
          obtain ⟨k, v⟩ := kv
          rfl
      · have hget1 : dictGet (if dictHas data s0 then data
            else dictSet data s0 (PyVal.dict [])) s = some (PyVal.str v0) := by
          rw [dictGet_ensure]
          simp [Ne.symm hs, hget]
        rcases hrun : mergeSectionV ((dictGet (if dictHas data s0 then data
            else dictSet data s0 (PyVal.dict [])) s0).getD (PyVal.dict []))
            keys0 stats with e | out
        · rfl
        · exact ih _ (by rw [dictGet_dictSet_ne _ _ (Ne.symm hs)]; exact hget1) h1

/-- `pairLe` on pairs implies the Python string order on first components. -/
theorem pairLe_fst_le {a b : String × String} (h : pairLe a b = true) :
    pyStrLe a.1 b.1 = true := by
  unfold pairLe at h
  by_cases hab : a.1 = b.1
  · simp [pyStrLe, hab]
  · rw [if_neg hab] at h
    simp [pyStrLe, h]

/-!
Claim theorems.
-/

/-- C1: the merge applies per-key semantics — over a patch that is a genuine
mapping (distinct section names, distinct keys per section), `added` counts
exactly the patch keys absent from the starting document and `updated`
exactly those present with a different value; and on the concrete scenario
(document `a.x=1`, patch `a.x=2, a.y=3, b.z=4`) the result is the merged
document with `added = 2` and `updated = 1`. -/
theorem vin_C1 :
    (∀ (doc : Document) (patch : Patch), mappingWF patch →
      (applyPatch doc patch).2 =
        ⟨countAdded doc patch, countUpdated doc patch⟩) ∧
    applyPatch [("a", [("x", "1")])]
        [("a", [("x", "2"), ("y", "3")]), ("b", [("z", "4")])] =
      ([("a", [("x", "2"), ("y", "3")]), ("b", [("z", "4")])], ⟨2, 1⟩) := by
  constructor
  · intro doc patch hwf
    unfold applyPatch
    have ha := applyPatchGo_added doc ⟨0, 0⟩ hwf.1 hwf.2
    have hu := applyPatchGo_updated doc ⟨0, 0⟩ hwf.1 hwf.2
    rcases hres : (applyPatchGo doc patch ⟨0, 0⟩).2 with ⟨a, u⟩
    rw [hres] at ha hu
    simp only at ha hu
    simp [ha, hu]
  · decide

/-- C1 witness: the counting characterization applied to the concrete
scenario document and patch. -/
theorem vin_C1_witness :
    (applyPatch [("a", [("x", "1")])]
        [("a", [("x", "2"), ("y", "3")]), ("b", [("z", "4")])]).2 =
      ⟨countAdded [("a", [("x", "1")])]
          [("a", [("x", "2"), ("y", "3")]), ("b", [("z", "4")])],
        countUpdated [("a", [("x", "1")])]
          [("a", [("x", "2"), ("y", "3")]), ("b", [("z", "4")])]⟩ :=
  vin_C1.1 [("a", [("x", "1")])]
    [("a", [("x", "2"), ("y", "3")]), ("b", [("z", "4")])] (by decide)

/-- C2: superset-merge frame invariant — a section not named in the patch is
returned unchanged by the merge, and a key not named in its section's patch
mapping keeps its exact prior value; the merge never deletes or replaces
unrelated content. -/
theorem vin_C2 (doc : Document) (patch : Patch) (s k : String) :
    (¬ mentionsSec patch s →
      dictGet (applyPatch doc patch).1 s = dictGet doc s) ∧
    (¬ mentionsKey patch s k →
      docGet (applyPatch doc patch).1 s k = docGet doc s k) := by
  constructor
  · intro hs
    apply applyPatchGo_get_sec_not_mentioned
    intro p hp hc
    exact hs ⟨p, hp, hc⟩
  · intro hk
    apply applyPatchGo_docGet_not_mentioned
    intro p hp hps hmem
    exact hk ⟨p, hp, hps, hmem⟩

/-- C2 witness: the frame invariant evaluated on a concrete document and a
patch that does not mention section `a` or its key `x`. -/
theorem vin_C2_witness :
    dictGet (applyPatch [("a", [("x", "1")])] [("b", [("z", "4")])]).1 "a" =
        dictGet [("a", [("x", "1")])] "a" ∧
      docGet (applyPatch [("a", [("x", "1")])] [("b", [("z", "4")])]).1 "a" "x" =
        docGet [("a", [("x", "1")])] "a" "x" :=
  ⟨(vin_C2 [("a", [("x", "1")])] [("b", [("z", "4")])] "a" "x").1 (by decide),
   (vin_C2 [("a", [("x", "1")])] [("b", [("z", "4")])] "a" "x").2 (by decide)⟩

/-- C4: the locale loop of `main` processes every configured locale no
matter which per-locale outcomes occur, and the process exit status is `0`
exactly when all three locales succeed, `1` otherwise. -/
theorem vin_C4 (process : String → Bool) :
    (mainRun process).map Prod.fst = locales ∧
    (mainExitCode process = 0 ↔ ∀ l ∈ locales, process l = true) := by
  constructor
  · simp [mainRun, Function.comp, locales]
  · cases h1 : process "en" <;> cases h2 : process "es" <;>
      cases h3 : process "pt-BR" <;>
      simp [mainExitCode, success_count, mainRun, locales, h1, h2, h3]

/-- C4 witness: with every locale succeeding the exit status is `0`, and the
loop still visited all three locales. -/
theorem vin_C4_witness :
    (mainRun (fun _ => true)).map Prod.fst = locales ∧
      mainExitCode (fun _ => true) = 0 :=
  ⟨(vin_C4 (fun _ => true)).1,
   (vin_C4 (fun _ => true)).2.mpr (by decide)⟩

/-- C5: idempotence — for a patch that is a genuine mapping, re-applying it
to the already-merged document changes nothing and reports
`added = 0` and `updated = 0`. -/
theorem vin_C5 (doc : Document) (patch : Patch) (hwf : mappingWF patch) :
    applyPatch (applyPatch doc patch).1 patch = ((applyPatch doc patch).1, ⟨0, 0⟩) := by
  unfold applyPatch
  apply applyPatchGo_noop
  intro p hp
  obtain ⟨s, keys⟩ := p
  constructor
  · exact applyPatchGo_has_mentioned doc patch ⟨0, 0⟩
      (List.mem_map_of_mem Prod.fst hp)
  · intro kv hkv
    exact applyPatchGo_wins doc ⟨0, 0⟩ hwf.1 hwf.2 hp hkv

/-- C5 witness: idempotence evaluated on the concrete scenario document and
patch. -/
theorem vin_C5_witness :
    applyPatch (applyPatch [("a", [("x", "1")])]
        [("a", [("x", "2"), ("y", "3")]), ("b", [("z", "4")])]).1
        [("a", [("x", "2"), ("y", "3")]), ("b", [("z", "4")])] =
      ((applyPatch [("a", [("x", "1")])]
        [("a", [("x", "2"), ("y", "3")]), ("b", [("z", "4")])]).1, ⟨0, 0⟩) :=
  vin_C5 [("a", [("x", "1")])]
    [("a", [("x", "2"), ("y", "3")]), ("b", [("z", "4")])] (by decide)

/-- C6: patch wins and never deletes — after merging a genuine mapping
patch, every section/key pair named in the patch holds exactly the patch's
value, and every key present in the document beforehand is still present. -/
theorem vin_C6 (doc : Document) (patch : Patch) (hwf : mappingWF patch) :
    (∀ (s : String) (keys : SectionMap) (k v : String),
      (s, keys) ∈ patch → (k, v) ∈ keys →
        docGet (applyPatch doc patch).1 s k = some v) ∧
    (∀ s k : String, (docGet doc s k).isSome →
      (docGet (applyPatch doc patch).1 s k).isSome) := by
  constructor
  · intro s keys k v hmem hkv
    exact applyPatchGo_wins doc ⟨0, 0⟩ hwf.1 hwf.2 hmem hkv
  · intro s k h
    exact applyPatchGo_isSome doc patch ⟨0, 0⟩ h

/-- C6 witness: on the concrete scenario, the patch value `a.x = 2` wins
over the document value `a.x = 1`, and the document key `a.x` survives. -/
theorem vin_C6_witness :
    docGet (applyPatch [("a", [("x", "1")])]
        [("a", [("x", "2"), ("y", "3")]), ("b", [("z", "4")])]).1 "a" "x" =
      some "2" ∧
    (docGet (applyPatch [("a", [("x", "1")])]
        [("a", [("x", "2"), ("y", "3")]), ("b", [("z", "4")])]).1 "a" "x").isSome :=
  ⟨(vin_C6 [("a", [("x", "1")])]
      [("a", [("x", "2"), ("y", "3")]), ("b", [("z", "4")])] (by decide)).1
      "a" [("x", "2"), ("y", "3")] "x" "2" (by decide) (by decide),
   (vin_C6 [("a", [("x", "1")])]
      [("a", [("x", "2"), ("y", "3")]), ("b", [("z", "4")])] (by decide)).2
      "a" "x" (by decide)⟩

/-- C7 counterexample: the claim as stated fails for a patch that introduces
an empty section — every key of the patch (there are none) exists in the
document with an identical value, yet the merged document differs from the
original: the merge created the empty section `b`. -/
theorem vin_C7_cex :
    (∀ p ∈ ([("b", [])] : Patch), ∀ kv ∈ p.2,
      docGet ([] : Document) p.1 kv.1 = some kv.2) ∧
    (applyPatch ([] : Document) [("b", [])]).1 ≠ ([] : Document) := by
  constructor
  · intro p hp kv hkv
    simp at hp
    subst hp
    simp at hkv
  · decide

/-- C7 (amended): if every section named in the patch already exists in the
document and every patch key already holds the identical value, the merge
reports `added = 0` and `updated = 0` and returns the document completely
unchanged (same entries in the same order). -/
theorem vin_C7 (doc : Document) (patch : Patch)
    (hsec : ∀ p ∈ patch, dictHas doc p.1 = true)
    (hval : ∀ p ∈ patch, ∀ kv ∈ p.2, docGet doc p.1 kv.1 = some kv.2) :
    applyPatch doc patch = (doc, ⟨0, 0⟩) := by
  unfold applyPatch
  exact applyPatchGo_noop (fun p hp => ⟨hsec p hp, hval p hp⟩)

/-- C7 witness: a no-op merge evaluated on a concrete document whose values
already match the patch. -/
theorem vin_C7_witness :
    applyPatch [("a", [("x", "1"), ("y", "2")])] [("a", [("y", "2")])] =
      ([("a", [("x", "1"), ("y", "2")])], ⟨0, 0⟩) :=
  vin_C7 [("a", [("x", "1"), ("y", "2")])] [("a", [("y", "2")])]
    (by decide) (by decide)

/-- C3 refutation: the write step is not atomic.  The scripts open the
target with mode `'w'`, which truncates it in place before `json.dump`
writes the new text, so the write passes through on-disk states (the empty
file among them) that are neither the old document nor the new one; an
interruption there leaves a truncated document.  Shown here on the concrete
locale document `a.x = 1` being overwritten with `a.x = 2`. -/
theorem vin_C3_truncation :
    ¬ atomicStates (saveDocument [("a", [("x", "1")])])
        (saveDocument [("a", [("x", "2")])])
        (inPlaceWriteStates [("a", [("x", "2")])]) := by
  intro h
  have hempty : ("" : String) ∈ inPlaceWriteStates [("a", [("x", "2")])] := by decide
  rcases h "" hempty with hc | hc <;> exact absurd hc.symm (by decide)

/-- C9 counterexample: the claim as stated fails when the patch maps the
offending section to an empty mapping — section `a` is named in the patch
and exists in the document with a scalar (non-mapping) value, yet the key
loop never runs, nothing raises, and the per-locale call reports success
rather than failure. -/
theorem vin_C9_cex :
    dictGet [("a", PyVal.str "hi")] "a" = some (PyVal.str "hi") ∧
    mentionsSec [("a", [])] "a" ∧
    add_translations_to_json_run (some [("a", PyVal.str "hi")]) [("a", [])] true =
      true := by
  refine ⟨rfl, ?_, rfl⟩
  exact ⟨("a", []), by simp, rfl⟩

/-- C9 (amended): if a section named in the patch with at least one key
exists in the document with a scalar (non-mapping) value, the merge raises
(`TypeError`, modelled as `Except.error`), the per-locale boundary catches
it and reports failure for that locale, and the locale loop still visits
every configured locale whatever the per-locale outcomes are. -/
theorem vin_C9 (data : List (String × PyVal)) (patch : Patch)
    (s v0 : String) (keys : SectionMap) (writeOk : Bool)
    (hget : dictGet data s = some (PyVal.str v0))
    (hmem : (s, keys) ∈ patch) (hne : keys ≠ []) :
    mergeDocV data patch ⟨0, 0⟩ = Except.error () ∧
    add_translations_to_json_run (some data) patch writeOk = false ∧
    (∀ process : String → Bool, (mainRun process).map Prod.fst = locales) := by
  have herr := mergeDocV_scalar_error (⟨0, 0⟩ : MergeStats) hget hmem hne
  refine ⟨herr, ?_, ?_⟩
  · simp [add_translations_to_json_run, herr]
  · intro process
    simp [mainRun, Function.comp, locales]

/-- C9 witness: the schema violation evaluated on a concrete document whose
section `a` is the scalar `"hi"` while the patch writes `a.k`. -/
theorem vin_C9_witness :
    mergeDocV [("a", PyVal.str "hi")] [("a", [("k", "v")])] ⟨0, 0⟩ =
        Except.error () ∧
      add_translations_to_json_run (some [("a", PyVal.str "hi")])
        [("a", [("k", "v")])] true = false ∧
      (∀ process : String → Bool, (mainRun process).map Prod.fst = locales) :=
  vin_C9 [("a", PyVal.str "hi")] [("a", [("k", "v")])] "a" "hi" [("k", "v")]
    true rfl (by simp) (by simp)

/-- C10: `fix_translations` rewrites the `vin_scanner_hub` section with its
keys in sorted (Python lexicographic) order — which can reorder the section
even when nothing was added or updated, as the final concrete conjunct
shows — while every other section is returned untouched, and hub keys not
named in the patch keep their exact prior value. -/
theorem fix_translations_merge_eq (doc : Document) (mk : SectionMap) :
    fix_translations_merge doc mk =
      (dictSet (if dictHas doc hubSection then doc else dictSet doc hubSection [])
        hubSection
        (List.insertionSort (fun a b => pairLe a b = true)
          (applyKeys ((dictGet doc hubSection).getD []) mk ⟨0, 0⟩).1),
       (applyKeys ((dictGet doc hubSection).getD []) mk ⟨0, 0⟩).2) := by
  have hsec0 : (dictGet (if dictHas doc hubSection then doc
      else dictSet doc hubSection []) hubSection).getD [] =
      (dictGet doc hubSection).getD [] := by
    rw [dictGet_ensure]
    rcases hg : dictGet doc hubSection with _ | sec0 <;> simp [hg]
  simp only [fix_translations_merge]
  rw [hsec0]

theorem vin_C10 (doc : Document) (missing_keys : SectionMap) :
    (∃ sec', dictGet (fix_translations_merge doc missing_keys).1 hubSection =
        some sec' ∧
      sec'.Pairwise (fun a b => pairLe a b = true) ∧
      (sec'.map Prod.fst).Pairwise (fun a b => pyStrLe a b = true)) ∧
    (∀ s : String, s ≠ hubSection →
      dictGet (fix_translations_merge doc missing_keys).1 s = dictGet doc s) ∧
    ((((dictGet doc hubSection).getD []).map Prod.fst).Nodup →
      ∀ k : String, k ∉ missing_keys.map Prod.fst →
        docGet (fix_translations_merge doc missing_keys).1 hubSection k =
          docGet doc hubSection k) ∧
    fix_translations_merge [(hubSection, [("b", "2"), ("a", "1")])] [("a", "1")] =
      ([(hubSection, [("a", "1"), ("b", "2")])], ⟨0, 0⟩) := by
  refine ⟨?_, ?_, ?_, ?_⟩
  · refine ⟨List.insertionSort (fun a b => pairLe a b = true)
        (applyKeys ((dictGet doc hubSection).getD [])
          missing_keys ⟨0, 0⟩).1, ?_, ?_, ?_⟩
    · rw [fix_translations_merge_eq]
      exact dictGet_dictSet_self _ _ _
    · exact sorted_insertionSort_pairLe _
    · exact List.Pairwise.map Prod.fst (fun a b h => pairLe_fst_le h)
        (sorted_insertionSort_pairLe _)
  · intro s hs
    rw [fix_translations_merge_eq]
    exact dictGet_after_step doc hubSection _ hs
  · intro hnd k hk
    rw [fix_translations_merge_eq]
    unfold docGet
    rw [dictGet_dictSet_self]
    simp only [Option.some_bind]
    rw [dictGet_insertionSort _ k (nodup_keys_applyKeys _ _ _ hnd)]
    rw [applyKeys_get_not_mem _ _ _ hk]
    rcases hg : dictGet doc hubSection with _ | sec0 <;> simp [hg, dictGet]
  · decide

/-- C10 witness: on a hub section `b=2, a=1` and patch key `a=1`, the merge
reorders the section without touching the value of the unmentioned key `b`,
and an unrelated section name is untouched. -/
theorem vin_C10_witness :
    docGet (fix_translations_merge [(hubSection, [("b", "2"), ("a", "1")])]
        [("a", "1")]).1 hubSection "b" =
      docGet [(hubSection, [("b", "2"), ("a", "1")])] hubSection "b" ∧
    dictGet (fix_translations_merge [(hubSection, [("b", "2"), ("a", "1")])]
        [("a", "1")]).1 "other" =
      dictGet [(hubSection, [("b", "2"), ("a", "1")])] "other" :=
  ⟨(vin_C10 [(hubSection, [("b", "2"), ("a", "1")])] [("a", "1")]).2.2.1
      (by decide) "b" (by decide),
   (vin_C10 [(hubSection, [("b", "2"), ("a", "1")])] [("a", "1")]).2.1
      "other" (by decide)⟩

/-!
Round-trip serialization: `json.load` recovers exactly what `json.dump`
wrote.  The proof works outside-in: string escapes, string literals, section
members, sections, top-level members, full document.
-/

theorem skipWs_ws {c : Char} (l : List Char) (h : isJsonWs c = true) :
    skipWs (c :: l) = skipWs l := by
  simp [skipWs, h]

theorem skipWs_not_ws {c : Char} (l : List Char) (h : isJsonWs c = false) :
    skipWs (c :: l) = c :: l := by
  simp [skipWs, h]

theorem encodeJString_append (s : String) (rest : List Char) :
    encodeJString s ++ rest = '"' :: (escapeList s.data ++ ('"' :: rest)) := by
  simp [encodeJString]

theorem skipWs_quote (l : List Char) : skipWs ('"' :: l) = '"' :: l :=
  skipWs_not_ws l (by decide)

theorem hexVal_hexDigitChar (m : Nat) (h : m < 16) :
    hexVal (hexDigitChar m) = some m := by
  interval_cases m <;> decide

theorem charFromCode_toNat (c : Char) (h : c.toNat < 55296) :
    charFromCode c.toNat = some c := by
  unfold charFromCode
  rw [if_pos (Or.inl h), Char.ofNat_toNat]

theorem parseStringChars_escapeList (cs : List Char) (rest : List Char) :
    parseStringChars (escapeList cs ++ ('"' :: rest)) = some (cs, rest) := by
  induction cs with
  | nil =>
    rw [show escapeList [] ++ ('"' :: rest) = '"' :: rest from rfl,
      parseStringChars.eq_def]
    simp
  | cons c cs ih =>
    rw [show escapeList (c :: cs) = escapeChar c ++ escapeList cs from rfl,
      List.append_assoc]
    by_cases h1 : c = '"'
    · subst h1
      rw [show escapeChar '"' ++ (escapeList cs ++ '"' :: rest) =
          '\\' :: '"' :: (escapeList cs ++ '"' :: rest) from rfl,
        parseStringChars.eq_def]
      simp [unescapeChar, ih]
    · by_cases h2 : c = '\\'
      · subst h2
        rw [show escapeChar '\\' ++ (escapeList cs ++ '"' :: rest) =
            '\\' :: '\\' :: (escapeList cs ++ '"' :: rest) from rfl,
          parseStringChars.eq_def]
        simp [unescapeChar, ih]
      · by_cases h3 : c = Char.ofNat 8
        · subst h3
          rw [show escapeChar (Char.ofNat 8) ++ (escapeList cs ++ '"' :: rest) =
              '\\' :: 'b' :: (escapeList cs ++ '"' :: rest) from rfl,
            parseStringChars.eq_def]
          simp [unescapeChar, ih]
        · by_cases h4 : c = Char.ofNat 12
          · subst h4
            rw [show escapeChar (Char.ofNat 12) ++ (escapeList cs ++ '"' :: rest) =
                '\\' :: 'f' :: (escapeList cs ++ '"' :: rest) from rfl,
              parseStringChars.eq_def]
            simp [unescapeChar, ih]
          · by_cases h5 : c = '\n'
            · subst h5
              rw [show escapeChar '\n' ++ (escapeList cs ++ '"' :: rest) =
                  '\\' :: 'n' :: (escapeList cs ++ '"' :: rest) from rfl,
                parseStringChars.eq_def]
              simp [unescapeChar, ih]
            · by_cases h6 : c = '\r'
              · subst h6
                rw [show escapeChar '\r' ++ (escapeList cs ++ '"' :: rest) =
                    '\\' :: 'r' :: (escapeList cs ++ '"' :: rest) from rfl,
                  parseStringChars.eq_def]
                simp [unescapeChar, ih]
              · by_cases h7 : c = '\t'
                · subst h7
                  rw [show escapeChar '\t' ++ (escapeList cs ++ '"' :: rest) =
                      '\\' :: 't' :: (escapeList cs ++ '"' :: rest) from rfl,
                    parseStringChars.eq_def]
                  simp [unescapeChar, ih]
                · by_cases h8 : c.toNat < 32
                  · have e0 : hexVal '0' = some 0 := by decide
                    have e1 := hexVal_hexDigitChar (c.toNat / 16) (by omega)
                    have e2 := hexVal_hexDigitChar (c.toNat % 16) (by omega)
                    have e3 : ((0 * 16 + 0) * 16 + c.toNat / 16) * 16 + c.toNat % 16 =
                        c.toNat := by omega
                    have e3' : c.toNat / 16 * 16 + c.toNat % 16 = c.toNat := by omega
                    have he : escapeChar c ++ (escapeList cs ++ '"' :: rest) =
                        '\\' :: 'u' :: '0' :: '0' :: hexDigitChar (c.toNat / 16) ::
                          hexDigitChar (c.toNat % 16) ::
                          (escapeList cs ++ '"' :: rest) := by
                      simp [escapeChar, h1, h2, h3, h4, h5, h6, h7, h8]
                    rw [he, parseStringChars.eq_def]
                    simp [e0, e1, e2, e3, e3', charFromCode_toNat c (by omega), ih]
                  · have he : escapeChar c ++ (escapeList cs ++ '"' :: rest) =
                        c :: (escapeList cs ++ '"' :: rest) := by
                      simp [escapeChar, h1, h2, h3, h4, h5, h6, h7, h8]
                    rw [he, parseStringChars.eq_def]
                    simp [h1, h2, h8, ih]

theorem parseJString_encode (d : List Char) (rest : List Char) :
    parseJString ('"' :: (escapeList d ++ ('"' :: rest))) =
      some (String.mk d, rest) := by
  simp [parseJString, parseStringChars_escapeList]

theorem skipWs_space (l : List Char) : skipWs (' ' :: l) = skipWs l :=
  skipWs_ws l (by decide)

theorem skipWs_newline (l : List Char) : skipWs ('\n' :: l) = skipWs l :=
  skipWs_ws l (by decide)

theorem skipWs_colon (l : List Char) : skipWs (':' :: l) = ':' :: l :=
  skipWs_not_ws l (by decide)

theorem skipWs_comma (l : List Char) : skipWs (',' :: l) = ',' :: l :=
  skipWs_not_ws l (by decide)

theorem skipWs_lbrace (l : List Char) : skipWs ('{' :: l) = '{' :: l :=
  skipWs_not_ws l (by decide)

theorem skipWs_rbrace (l : List Char) : skipWs ('}' :: l) = '}' :: l :=
  skipWs_not_ws l (by decide)

theorem expectChar_cons_self (c : Char) (l : List Char) :
    expectChar c (c :: l) = some l := by
  simp [expectChar]

theorem string_mk_data (s : String) : String.mk s.data = s := rfl

theorem skipWs_encodeJString (s : String) (rest : List Char) :
    skipWs (encodeJString s ++ rest) = encodeJString s ++ rest := by
  rw [encodeJString_append]
  exact skipWs_quote _

theorem sectionSep_nil : sectionSep [] = [] := rfl

theorem sectionSep_cons (m : String × String) (rest : SectionMap) :
    sectionSep (m :: rest) = ',' :: '\n' :: encodeSectionItems (m :: rest) := rfl

theorem encodeSectionItems_cons (k v : String) (rest : SectionMap) :
    encodeSectionItems ((k, v) :: rest) =
      [' ', ' ', ' ', ' '] ++ encodeJString k ++ [':', ' '] ++ encodeJString v ++
        sectionSep rest := by
  cases rest <;> rfl

theorem parseSectionMembers_encode (sec : SectionMap) :
    ∀ (k v : String) (fuel : Nat) (tail : List Char), sec.length < fuel →
      parseSectionMembers fuel
        ('"' :: (escapeList k.data ++ ('"' :: ':' :: ' ' :: '"' ::
          (escapeList v.data ++ ('"' ::
            (sectionSep sec ++ ('\n' :: ' ' :: ' ' :: '}' :: tail))))))) =
        some ((k, v) :: sec, tail) := by
  induction sec with
  | nil =>
    intro k v fuel tail hf
    cases fuel with
    | zero => omega
    | succ f =>
      rw [parseSectionMembers.eq_def]
      simp [parseJString_encode, string_mk_data, expectChar_cons_self,
        sectionSep_nil, skipWs_colon, skipWs_space, skipWs_quote, skipWs_newline,
        skipWs_rbrace]
  | cons m rest ih =>
    obtain ⟨k2, v2⟩ := m
    intro k v fuel tail hf
    cases fuel with
    | zero => omega
    | succ f =>
      have hrec := ih k2 v2 f tail (by simpa using Nat.lt_of_succ_lt_succ hf)
      rw [parseSectionMembers.eq_def]
      simp only [sectionSep_cons, encodeSectionItems_cons, parseJString_encode,
        string_mk_data, skipWs_colon, expectChar_cons_self, skipWs_space,
        skipWs_quote, skipWs_newline, skipWs_comma, List.cons_append,
        List.append_assoc, List.nil_append, if_true, skipWs_encodeJString,
        encodeJString_append]
      rw [hrec]

theorem encodeSection_nil : encodeSection [] = ['{', '}'] := rfl

theorem encodeSection_cons (m : String × String) (rest : SectionMap) :
    encodeSection (m :: rest) =
      ['{', '\n'] ++ encodeSectionItems (m :: rest) ++ ['\n', ' ', ' ', '}'] := rfl

theorem parseSection_encode (sec : SectionMap) (fuel : Nat) (tail : List Char)
    (hnd : (sec.map Prod.fst).Nodup) (hf : sec.length < fuel) :
    parseSection fuel (' ' :: (encodeSection sec ++ tail)) = some (sec, tail) := by
  cases sec with
  | nil =>
    rw [parseSection.eq_def]
    simp [encodeSection_nil, skipWs_space, skipWs_lbrace, skipWs_rbrace,
      expectChar_cons_self, buildDict]
  | cons m rest =>
    obtain ⟨k, v⟩ := m
    have hmem := parseSectionMembers_encode rest k v fuel tail
      (by simpa using Nat.lt_of_succ_lt hf)
    rw [parseSection.eq_def]
    simp only [encodeSection_cons, encodeSectionItems_cons, List.cons_append,
      List.append_assoc, List.nil_append, skipWs_space, skipWs_lbrace,
      skipWs_newline, expectChar_cons_self, skipWs_encodeJString,
      encodeJString_append, skipWs_quote]
    rw [hmem]
    simp [buildDict_self _ hnd]

theorem docSep_nil : docSep [] = [] := rfl

theorem docSep_cons (m : String × SectionMap) (rest : Document) :
    docSep (m :: rest) = ',' :: '\n' :: encodeDocItems (m :: rest) := rfl

theorem encodeDocItems_cons (s : String) (sec : SectionMap) (rest : Document) :
    encodeDocItems ((s, sec) :: rest) =
      [' ', ' '] ++ encodeJString s ++ [':', ' '] ++ encodeSection sec ++
        docSep rest := by
  cases rest <;> rfl

theorem parseDocMembers_encode (doc : Document) :
    ∀ (s : String) (sec : SectionMap) (fuel : Nat) (tail : List Char),
      (∀ p ∈ doc, (p.2.map Prod.fst).Nodup) → (sec.map Prod.fst).Nodup →
      doc.length + (doc.map (fun p => p.2.length)).sum + sec.length < fuel →
      parseDocMembers fuel
        ('"' :: (escapeList s.data ++ ('"' :: ':' ::
          (' ' :: (encodeSection sec ++ (docSep doc ++ ('\n' :: '}' :: tail))))))) =
        some ((s, sec) :: doc, tail) := by
  induction doc with
  | nil =>
    intro s sec fuel tail _ hnd hf
    cases fuel with
    | zero => omega
    | succ f =>
      have hsec := parseSection_encode sec (f + 1)
        (docSep [] ++ ('\n' :: '}' :: tail)) hnd (by simp at hf; omega)
      rw [parseDocMembers.eq_def]
      simp only [parseJString_encode, string_mk_data, skipWs_colon,
        expectChar_cons_self, List.cons_append, List.append_assoc,
        List.nil_append]
      rw [show (' ' :: (encodeSection sec ++ (docSep [] ++ ('\n' :: '}' :: tail)))) =
        ' ' :: (encodeSection sec ++ ('\n' :: '}' :: tail)) from by
          simp [docSep_nil]] at hsec ⊢
      rw [hsec]
      simp [docSep_nil, skipWs_newline, skipWs_rbrace]
  | cons m rest ih =>
    obtain ⟨s2, sec2⟩ := m
    intro s sec fuel tail hknd hnd hf
    cases fuel with
    | zero => omega
    | succ f =>
      have hsec := parseSection_encode sec (f + 1)
        (docSep ((s2, sec2) :: rest) ++ ('\n' :: '}' :: tail)) hnd (by omega)
      have hrec := ih s2 sec2 f tail
        (fun p hp => hknd p (List.mem_cons_of_mem _ hp))
        (hknd (s2, sec2) (by simp))
        (by simp at hf ⊢; omega)
      rw [parseDocMembers.eq_def]
      simp only [parseJString_encode, string_mk_data, skipWs_colon,
        expectChar_cons_self, List.cons_append, List.append_assoc,
        List.nil_append]
      rw [hsec]
      simp only [docSep_cons, encodeDocItems_cons, List.cons_append,
        List.append_assoc, List.nil_append, skipWs_comma, skipWs_newline,
        skipWs_space, skipWs_encodeJString, encodeJString_append, if_true,
        skipWs_quote]
      rw [hrec]

theorem encodeSectionItems_length (sec : SectionMap) :
    sec.length ≤ (encodeSectionItems sec).length := by
  induction sec with
  | nil => simp [encodeSectionItems]
  | cons m rest ih =>
    obtain ⟨k, v⟩ := m
    rw [encodeSectionItems_cons]
    cases rest with
    | nil => simp [sectionSep_nil]
    | cons m2 r2 =>
      rw [sectionSep_cons]
      simp only [List.length_append, List.length_cons] at ih ⊢
      omega

theorem encodeSection_length (sec : SectionMap) :
    sec.length ≤ (encodeSection sec).length := by
  cases sec with
  | nil => simp [encodeSection_nil]
  | cons m rest =>
    have h := encodeSectionItems_length (m :: rest)
    rw [encodeSection_cons]
    simp only [List.length_append, List.length_cons] at h ⊢
    omega

theorem encodeDocItems_length (doc : Document) :
    doc.length + (doc.map (fun p => p.2.length)).sum ≤ (encodeDocItems doc).length := by
  induction doc with
  | nil => simp [encodeDocItems]
  | cons m rest ih =>
    obtain ⟨s, sec⟩ := m
    have h1 := encodeSection_length sec
    rw [encodeDocItems_cons]
    cases rest with
    | nil =>
      simp only [docSep_nil, List.map_cons, List.map_nil, List.sum_cons,
        List.sum_nil, List.length_append, List.length_cons, List.length_nil]
      omega
    | cons m2 r2 =>
      rw [docSep_cons]
      simp only [List.map_cons, List.sum_cons, List.length_append,
        List.length_cons] at ih ⊢
      omega

/-- C8: round-trip serialization — for every wellformed document (a genuine
two-level mapping: no repeated section names, no repeated keys within a
section), parsing the exact text the save step writes yields the document
back unchanged, entry for entry and in the same order. -/
theorem vin_C8 (doc : Document) (hwf : mappingWF doc) :
    loadDocument (saveDocument doc) = some doc := by
  cases doc with
  | nil => decide
  | cons m rest =>
    obtain ⟨s, sec⟩ := m
    have hknd : ∀ p ∈ rest, (p.2.map Prod.fst).Nodup :=
      fun p hp => hwf.2 p (List.mem_cons_of_mem _ hp)
    have hnd : (sec.map Prod.fst).Nodup := hwf.2 (s, sec) (by simp)
    have hdata : (saveDocument ((s, sec) :: rest)).data =
        '{' :: '\n' :: (encodeDocItems ((s, sec) :: rest) ++ ['\n', '}']) := rfl
    have hlen : rest.length + (rest.map (fun p => p.2.length)).sum + sec.length <
        ('{' :: '\n' :: (encodeDocItems ((s, sec) :: rest) ++ ['\n', '}'])).length
          + 1 := by
      have h1 := encodeDocItems_length ((s, sec) :: rest)
      simp only [List.map_cons, List.sum_cons, List.length_cons,
        List.length_append] at h1 ⊢
      omega
    have hparse := parseDocMembers_encode rest s sec
      (('{' :: '\n' :: (encodeDocItems ((s, sec) :: rest) ++ ['\n', '}'])).length
        + 1) [] hknd hnd hlen
    simp only [loadDocument, hdata]
    set n := ('{' :: '\n' :: (encodeDocItems ((s, sec) :: rest) ++
      ['\n', '}'])).length + 1 with hn
    simp only [encodeDocItems_cons, List.cons_append, List.append_assoc,
      List.nil_append, skipWs_lbrace, expectChar_cons_self, skipWs_newline,
      skipWs_space, skipWs_encodeJString, encodeJString_append, skipWs_quote]
    rw [if_neg (show ¬('"' : Char) = '}' by decide), hparse]
    simp [buildDict_self _ hwf.1, skipWs]

/-- C8 witness: the round trip evaluated on a concrete document containing a
quote, a backslash, a newline and a non-ASCII character. -/
theorem vin_C8_witness :
    loadDocument (saveDocument
        [("a", [("x", "1"), ("y", "v\"w\\z\né")]), ("b", [])]) =
      some [("a", [("x", "1"), ("y", "v\"w\\z\né")]), ("b", [])] :=
  vin_C8 [("a", [("x", "1"), ("y", "v\"w\\z\né")]), ("b", [])] (by decide)

end VinMerge
